import Mathlib

/-!
Verification of the utf16_lit codec: the const functions `wide_len` and
`wide` of src/lib.rs (UTF-8 decoding, UTF-16 encoding) and the copy loop of
the `utf16_null!` macro, embedded shallowly over lists of natural numbers.

A byte sequence is a `List Nat` whose members are below 256 (Rust `u8`).
Const-evaluation failure aborts the build of the Rust program; it is
modelled by `Option.none`.  Two kinds of const-evaluation failure occur in
the source: the invalid-literal indexing trick (index 1 into a one-element
array, taken when a leading byte matches none of the four patterns), and an
out-of-bounds look-ahead `s[index + k]` when a multi-byte leading byte has
fewer than k following bytes.  Because the look-aheads are performed
unconditionally inside each branch, the loop body is spelled out below once
per remaining-input shape (0, 1, 2, 3, or at least 4 bytes left): in the
short shapes the branches whose look-ahead would fall off the end are
`none`.  The branch conditions and the assembled scalar values are the
source's bit expressions, verbatim.
-/

namespace Utf16Lit

/-- Embedding of `always_true` from src/lib.rs: a const fn returning `true`.
The source indexes a one-element array at `always_true() as usize` (= 1) to
force a const-evaluation failure on malformed input. -/
def always_true : Bool := true

/-- Unit-count contribution of one decoded scalar, as accumulated by
`wide_len`: the source executes `length += [1, 2][(chr >= 0x10000) as usize]`. -/
def unitCount (chr : Nat) : Nat :=
  if 0x10000 ≤ chr then 2 else 1

/-- Embedding of `wide_len` from src/lib.rs.  Each branch tests the leading
byte with the source's mask comparison, assembles the scalar `chr` from the
masked bits exactly as the source does, advances past the consumed bytes
and accumulates `unitCount chr`.  A branch whose look-ahead `s[index + k]`
would be out of bounds is `none`, and so is the final invalid-literal
branch. -/
def wide_len : List Nat → Option Nat
  | [] => some 0
  | [b] =>
    if b &&& 0x80 = 0x00 then
      (wide_len []).map (fun n => unitCount b + n)
    else
      none
  | [b, b1] =>
    if b &&& 0x80 = 0x00 then
      (wide_len [b1]).map (fun n => unitCount b + n)
    else if b &&& 0xe0 = 0xc0 then
      (wide_len []).map (fun n =>
        unitCount (((b &&& 0x1f) <<< 6) ||| (b1 &&& 0x3f)) + n)
    else
      none
  | [b, b1, b2] =>
    if b &&& 0x80 = 0x00 then
      (wide_len [b1, b2]).map (fun n => unitCount b + n)
    else if b &&& 0xe0 = 0xc0 then
      (wide_len [b2]).map (fun n =>
        unitCount (((b &&& 0x1f) <<< 6) ||| (b1 &&& 0x3f)) + n)
    else if b &&& 0xf0 = 0xe0 then
      (wide_len []).map (fun n =>
        unitCount (((b &&& 0x0f) <<< 12) ||| ((b1 &&& 0x3f) <<< 6) |||
          (b2 &&& 0x3f)) + n)
    else
      none
  | b :: b1 :: b2 :: b3 :: rest =>
    if b &&& 0x80 = 0x00 then
      (wide_len (b1 :: b2 :: b3 :: rest)).map (fun n => unitCount b + n)
    else if b &&& 0xe0 = 0xc0 then
      (wide_len (b2 :: b3 :: rest)).map (fun n =>
        unitCount (((b &&& 0x1f) <<< 6) ||| (b1 &&& 0x3f)) + n)
    else if b &&& 0xf0 = 0xe0 then
      (wide_len (b3 :: rest)).map (fun n =>
        unitCount (((b &&& 0x0f) <<< 12) ||| ((b1 &&& 0x3f) <<< 6) |||
          (b2 &&& 0x3f)) + n)
    else if b &&& 0xf8 = 0xf0 then
      (wide_len rest).map (fun n =>
        unitCount (((b &&& 0x07) <<< 18) ||| ((b1 &&& 0x3f) <<< 12) |||
          ((b2 &&& 0x3f) <<< 6) ||| (b3 &&& 0x3f)) + n)
    else
      none

/-- UTF-16 encoding of one decoded scalar, as written by `wide` in
src/lib.rs: for `chr >= 0x10000` the surrogate pair
`(0xD800 + (chr - 0x10000) / 0x400, 0xDC00 + (chr - 0x10000) % 0x400)`
(each written through an `as u16` cast, hence the `% 0x10000`), otherwise
the single unit `chr as u16`. -/
def encodeScalar (chr : Nat) : List Nat :=
  if 0x10000 ≤ chr then
    [(0xd800 + (chr - 0x10000) / 0x400) % 0x10000,
     (0xdc00 + (chr - 0x10000) % 0x400) % 0x10000]
  else
    [chr % 0x10000]

/-- Embedding of `wide` from src/lib.rs: the same scan as `wide_len` (same
shapes, same branch conditions, same scalar assembly), but emitting UTF-16
code units.  The source writes into a buffer of `ARRAY_LENGTH` slots
through a `data_index` cursor; the model collects the units written, in
order. -/
def wide : List Nat → Option (List Nat)
  | [] => some []
  | [b] =>
    if b &&& 0x80 = 0x00 then
      (wide []).map (fun u => encodeScalar b ++ u)
    else
      none
  | [b, b1] =>
    if b &&& 0x80 = 0x00 then
      (wide [b1]).map (fun u => encodeScalar b ++ u)
    else if b &&& 0xe0 = 0xc0 then
      (wide []).map (fun u =>
        encodeScalar (((b &&& 0x1f) <<< 6) ||| (b1 &&& 0x3f)) ++ u)
    else
      none
  | [b, b1, b2] =>
    if b &&& 0x80 = 0x00 then
      (wide [b1, b2]).map (fun u => encodeScalar b ++ u)
    else if b &&& 0xe0 = 0xc0 then
      (wide [b2]).map (fun u =>
        encodeScalar (((b &&& 0x1f) <<< 6) ||| (b1 &&& 0x3f)) ++ u)
    else if b &&& 0xf0 = 0xe0 then
      (wide []).map (fun u =>
        encodeScalar (((b &&& 0x0f) <<< 12) ||| ((b1 &&& 0x3f) <<< 6) |||
          (b2 &&& 0x3f)) ++ u)
    else
      none
  | b :: b1 :: b2 :: b3 :: rest =>
    if b &&& 0x80 = 0x00 then
      (wide (b1 :: b2 :: b3 :: rest)).map (fun u => encodeScalar b ++ u)
    else if b &&& 0xe0 = 0xc0 then
      (wide (b2 :: b3 :: rest)).map (fun u =>
        encodeScalar (((b &&& 0x1f) <<< 6) ||| (b1 &&& 0x3f)) ++ u)
    else if b &&& 0xf0 = 0xe0 then
      (wide (b3 :: rest)).map (fun u =>
        encodeScalar (((b &&& 0x0f) <<< 12) ||| ((b1 &&& 0x3f) <<< 6) |||
          (b2 &&& 0x3f)) ++ u)
    else if b &&& 0xf8 = 0xf0 then
      (wide rest).map (fun u =>
        encodeScalar (((b &&& 0x07) <<< 18) ||| ((b1 &&& 0x3f) <<< 12) |||
          ((b2 &&& 0x3f) <<< 6) ||| (b3 &&& 0x3f)) ++ u)
    else
      none

/-- The `utf16!` macro: first `ARRAY_LENGTH` is computed by `wide_len`, then
the array is produced by `wide`; failure of either pass aborts the build. -/
def utf16 (s : List Nat) : Option (List Nat) :=
  (wide_len s).bind (fun _ => wide s)

/-- The copy loop of the `utf16_null!` macro in src/lib.rs: `data` starts as
a buffer of `U16.len() + 1` zeros and the loop sets `data[i] = U16[i]`
while `i < data.len() - 1`. -/
def null_copy (u : List Nat) (data : List Nat) (i : Nat) : List Nat :=
  if i < data.length - 1 then
    null_copy u (data.set i (u.getD i 0)) (i + 1)
  else
    data
termination_by data.length - i
decreasing_by simp [List.length_set]; omega

/-- The inner const block of `utf16_null!`: a fresh buffer of
`U16.len() + 1` zeros filled by the copy loop. -/
def utf16_null_units (u : List Nat) : List Nat :=
  null_copy u (List.replicate (u.length + 1) 0) 0

/-- The `utf16_null!` macro: the `utf16!` output, copied into a buffer one
slot longer whose last slot keeps its initial zero. -/
def utf16_null (s : List Nat) : Option (List Nat) :=
  (utf16 s).map utf16_null_units

/-- Modelled from the spec: a Unicode scalar value usable in interchange is
below 0x110000 and not a surrogate (0xD800 to 0xDFFF). -/
def ScalarValue (c : Nat) : Prop :=
  c < 0x110000 ∧ (c < 0xd800 ∨ 0xdfff < c)

instance (c : Nat) : Decidable (ScalarValue c) := by
  unfold ScalarValue; infer_instance

/-- Modelled from the spec: the standard UTF-8 byte-pattern rules of
Operation A, read off the leading byte's high bits as value ranges.
A 0xxxxxxx byte is at most 0x7F and carries its 7 low bits; a 110xxxxx
byte lies in 0xC0 to 0xDF and contributes its 5 low bits above the 6 low
bits of the next byte; likewise for the 3- and 4-byte patterns.  A leading
byte matching none of the four patterns, or a missing continuation byte,
yields no scalar sequence.  Spelled out per remaining-input shape like the
functions above. -/
def decode_scalars : List Nat → Option (List Nat)
  | [] => some []
  | [b] =>
    if b ≤ 0x7f then
      (decode_scalars []).map (fun cs => b :: cs)
    else
      none
  | [b, b1] =>
    if b ≤ 0x7f then
      (decode_scalars [b1]).map (fun cs => b :: cs)
    else if 0xc0 ≤ b ∧ b ≤ 0xdf then
      (decode_scalars []).map (fun cs =>
        ((b % 0x20) * 0x40 + b1 % 0x40) :: cs)
    else
      none
  | [b, b1, b2] =>
    if b ≤ 0x7f then
      (decode_scalars [b1, b2]).map (fun cs => b :: cs)
    else if 0xc0 ≤ b ∧ b ≤ 0xdf then
      (decode_scalars [b2]).map (fun cs =>
        ((b % 0x20) * 0x40 + b1 % 0x40) :: cs)
    else if 0xe0 ≤ b ∧ b ≤ 0xef then
      (decode_scalars []).map (fun cs =>
        ((b % 0x10) * 0x1000 + (b1 % 0x40) * 0x40 + b2 % 0x40) :: cs)
    else
      none
  | b :: b1 :: b2 :: b3 :: rest =>
    if b ≤ 0x7f then
      (decode_scalars (b1 :: b2 :: b3 :: rest)).map (fun cs => b :: cs)
    else if 0xc0 ≤ b ∧ b ≤ 0xdf then
      (decode_scalars (b2 :: b3 :: rest)).map (fun cs =>
        ((b % 0x20) * 0x40 + b1 % 0x40) :: cs)
    else if 0xe0 ≤ b ∧ b ≤ 0xef then
      (decode_scalars (b3 :: rest)).map (fun cs =>
        ((b % 0x10) * 0x1000 + (b1 % 0x40) * 0x40 + b2 % 0x40) :: cs)
    else if 0xf0 ≤ b ∧ b ≤ 0xf7 then
      (decode_scalars rest).map (fun cs =>
        ((b % 0x08) * 0x40000 + (b1 % 0x40) * 0x1000 +
          (b2 % 0x40) * 0x40 + b3 % 0x40) :: cs)
    else
      none

/-- Modelled from the spec: Operation A as described, scanning left to right
one scalar at a time and adding 1 for a scalar below 0x10000 and 2 at or
above it. -/
def spec_wide_len (s : List Nat) : Option Nat :=
  (decode_scalars s).map (fun cs =>
    (cs.map (fun c => if c < 0x10000 then 1 else 2)).sum)

/-- UTF-16 encoding of a scalar sequence: each scalar's units in order.
Used to state what `wide` produces in terms of the decoded scalars. -/
def encode_all (cs : List Nat) : List Nat :=
  cs.flatMap encodeScalar

/-- Continuation byte of a well-formed UTF-8 sequence: 10xxxxxx. -/
def cont (b : Nat) : Bool :=
  decide (0x80 ≤ b ∧ b ≤ 0xbf)

/-- Modelled from the spec: well-formed UTF-8, following the Unicode
standard's table of well-formed byte sequences (which the spec's
"well-formed UTF-8 string ... enforced by the host environment" refers
to).  It excludes overlong forms, encoded surrogates and values above
0x10FFFF via the per-range constraints on the first continuation byte. -/
def wellFormedUtf8 : List Nat → Bool
  | [] => true
  | [b] => decide (b ≤ 0x7f)
  | [b, b1] =>
    if b ≤ 0x7f then
      wellFormedUtf8 [b1]
    else if 0xc2 ≤ b ∧ b ≤ 0xdf then
      cont b1
    else
      false
  | [b, b1, b2] =>
    if b ≤ 0x7f then
      wellFormedUtf8 [b1, b2]
    else if 0xc2 ≤ b ∧ b ≤ 0xdf then
      cont b1 && wellFormedUtf8 [b2]
    else if b = 0xe0 then
      decide (0xa0 ≤ b1 ∧ b1 ≤ 0xbf) && cont b2
    else if (0xe1 ≤ b ∧ b ≤ 0xec) ∨ b = 0xee ∨ b = 0xef then
      cont b1 && cont b2
    else if b = 0xed then
      decide (0x80 ≤ b1 ∧ b1 ≤ 0x9f) && cont b2
    else
      false
  | b :: b1 :: b2 :: b3 :: rest =>
    if b ≤ 0x7f then
      wellFormedUtf8 (b1 :: b2 :: b3 :: rest)
    else if 0xc2 ≤ b ∧ b ≤ 0xdf then
      cont b1 && wellFormedUtf8 (b2 :: b3 :: rest)
    else if b = 0xe0 then
      decide (0xa0 ≤ b1 ∧ b1 ≤ 0xbf) && cont b2 && wellFormedUtf8 (b3 :: rest)
    else if (0xe1 ≤ b ∧ b ≤ 0xec) ∨ b = 0xee ∨ b = 0xef then
      cont b1 && cont b2 && wellFormedUtf8 (b3 :: rest)
    else if b = 0xed then
      decide (0x80 ≤ b1 ∧ b1 ≤ 0x9f) && cont b2 && wellFormedUtf8 (b3 :: rest)
    else if b = 0xf0 then
      decide (0x90 ≤ b1 ∧ b1 ≤ 0xbf) && cont b2 && cont b3 &&
        wellFormedUtf8 rest
    else if 0xf1 ≤ b ∧ b ≤ 0xf3 then
      cont b1 && cont b2 && cont b3 && wellFormedUtf8 rest
    else if b = 0xf4 then
      decide (0x80 ≤ b1 ∧ b1 ≤ 0x8f) && cont b2 && cont b3 &&
        wellFormedUtf8 rest
    else
      false

/-- Modelled from the spec: decoding UTF-16 back to scalar values by pairing
surrogates, as in the round-trip property.  A high surrogate must be
followed by a low surrogate; an unpaired surrogate has no decoding. -/
def decode_utf16 : List Nat → Option (List Nat)
  | [] => some []
  | [u] =>
    if 0xd800 ≤ u ∧ u ≤ 0xdfff then
      none
    else
      (decode_utf16 []).map (fun cs => u :: cs)
  | u :: l :: rest =>
    if 0xd800 ≤ u ∧ u ≤ 0xdbff then
      if 0xdc00 ≤ l ∧ l ≤ 0xdfff then
        (decode_utf16 rest).map (fun cs =>
          (0x10000 + (u - 0xd800) * 0x400 + (l - 0xdc00)) :: cs)
      else
        none
    else if 0xdc00 ≤ u ∧ u ≤ 0xdfff then
      none
    else
      (decode_utf16 (l :: rest)).map (fun cs => u :: cs)

/-- Fuel-bounded version of the `wide_len` loop: one unit of fuel per loop
iteration, `none` when the fuel runs out before the input is consumed.
Used to express that the loop terminates within `s.length` iterations,
every iteration consuming at least one byte. -/
def wide_len_fuel : Nat → List Nat → Option Nat
  | _, [] => some 0
  | 0, _ :: _ => none
  | fuel + 1, [b] =>
    if b &&& 0x80 = 0x00 then
      (wide_len_fuel fuel []).map (fun n => unitCount b + n)
    else
      none
  | fuel + 1, [b, b1] =>
    if b &&& 0x80 = 0x00 then
      (wide_len_fuel fuel [b1]).map (fun n => unitCount b + n)
    else if b &&& 0xe0 = 0xc0 then
      (wide_len_fuel fuel []).map (fun n =>
        unitCount (((b &&& 0x1f) <<< 6) ||| (b1 &&& 0x3f)) + n)
    else
      none
  | fuel + 1, [b, b1, b2] =>
    if b &&& 0x80 = 0x00 then
      (wide_len_fuel fuel [b1, b2]).map (fun n => unitCount b + n)
    else if b &&& 0xe0 = 0xc0 then
      (wide_len_fuel fuel [b2]).map (fun n =>
        unitCount (((b &&& 0x1f) <<< 6) ||| (b1 &&& 0x3f)) + n)
    else if b &&& 0xf0 = 0xe0 then
      (wide_len_fuel fuel []).map (fun n =>
        unitCount (((b &&& 0x0f) <<< 12) ||| ((b1 &&& 0x3f) <<< 6) |||
          (b2 &&& 0x3f)) + n)
    else
      none
  | fuel + 1, b :: b1 :: b2 :: b3 :: rest =>
    if b &&& 0x80 = 0x00 then
      (wide_len_fuel fuel (b1 :: b2 :: b3 :: rest)).map (fun n =>
        unitCount b + n)
    else if b &&& 0xe0 = 0xc0 then
      (wide_len_fuel fuel (b2 :: b3 :: rest)).map (fun n =>
        unitCount (((b &&& 0x1f) <<< 6) ||| (b1 &&& 0x3f)) + n)
    else if b &&& 0xf0 = 0xe0 then
      (wide_len_fuel fuel (b3 :: rest)).map (fun n =>
        unitCount (((b &&& 0x0f) <<< 12) ||| ((b1 &&& 0x3f) <<< 6) |||
          (b2 &&& 0x3f)) + n)
    else if b &&& 0xf8 = 0xf0 then
      (wide_len_fuel fuel rest).map (fun n =>
        unitCount (((b &&& 0x07) <<< 18) ||| ((b1 &&& 0x3f) <<< 12) |||
          ((b2 &&& 0x3f) <<< 6) ||| (b3 &&& 0x3f)) + n)
    else
      none

/-- Fuel-bounded version of the `wide` loop, as for `wide_len_fuel`. -/
def wide_fuel : Nat → List Nat → Option (List Nat)
  | _, [] => some []
  | 0, _ :: _ => none
  | fuel + 1, [b] =>
    if b &&& 0x80 = 0x00 then
      (wide_fuel fuel []).map (fun u => encodeScalar b ++ u)
    else
      none
  | fuel + 1, [b, b1] =>
    if b &&& 0x80 = 0x00 then
      (wide_fuel fuel [b1]).map (fun u => encodeScalar b ++ u)
    else if b &&& 0xe0 = 0xc0 then
      (wide_fuel fuel []).map (fun u =>
        encodeScalar (((b &&& 0x1f) <<< 6) ||| (b1 &&& 0x3f)) ++ u)
    else
      none
  | fuel + 1, [b, b1, b2] =>
    if b &&& 0x80 = 0x00 then
      (wide_fuel fuel [b1, b2]).map (fun u => encodeScalar b ++ u)
    else if b &&& 0xe0 = 0xc0 then
      (wide_fuel fuel [b2]).map (fun u =>
        encodeScalar (((b &&& 0x1f) <<< 6) ||| (b1 &&& 0x3f)) ++ u)
    else if b &&& 0xf0 = 0xe0 then
      (wide_fuel fuel []).map (fun u =>
        encodeScalar (((b &&& 0x0f) <<< 12) ||| ((b1 &&& 0x3f) <<< 6) |||
          (b2 &&& 0x3f)) ++ u)
    else
      none
  | fuel + 1, b :: b1 :: b2 :: b3 :: rest =>
    if b &&& 0x80 = 0x00 then
      (wide_fuel fuel (b1 :: b2 :: b3 :: rest)).map (fun u =>
        encodeScalar b ++ u)
    else if b &&& 0xe0 = 0xc0 then
      (wide_fuel fuel (b2 :: b3 :: rest)).map (fun u =>
        encodeScalar (((b &&& 0x1f) <<< 6) ||| (b1 &&& 0x3f)) ++ u)
    else if b &&& 0xf0 = 0xe0 then
      (wide_fuel fuel (b3 :: rest)).map (fun u =>
        encodeScalar (((b &&& 0x0f) <<< 12) ||| ((b1 &&& 0x3f) <<< 6) |||
          (b2 &&& 0x3f)) ++ u)
    else if b &&& 0xf8 = 0xf0 then
      (wide_fuel fuel rest).map (fun u =>
        encodeScalar (((b &&& 0x07) <<< 18) ||| ((b1 &&& 0x3f) <<< 12) |||
          ((b2 &&& 0x3f) <<< 6) ||| (b3 &&& 0x3f)) ++ u)
    else
      none

/-! Arithmetic readings of the source's bit operations. -/

theorem and_1f (x : Nat) : x &&& 0x1f = x % 0x20 :=
  Nat.and_pow_two_sub_one_eq_mod x 5

theorem and_3f (x : Nat) : x &&& 0x3f = x % 0x40 :=
  Nat.and_pow_two_sub_one_eq_mod x 6

theorem and_0f (x : Nat) : x &&& 0x0f = x % 0x10 :=
  Nat.and_pow_two_sub_one_eq_mod x 4

theorem and_07 (x : Nat) : x &&& 0x07 = x % 0x08 :=
  Nat.and_pow_two_sub_one_eq_mod x 3

theorem shl6 (x : Nat) : x <<< 6 = x * 0x40 :=
  Nat.shiftLeft_eq x 6

theorem shl12 (x : Nat) : x <<< 12 = x * 0x1000 :=
  Nat.shiftLeft_eq x 12

theorem shl18 (x : Nat) : x <<< 18 = x * 0x40000 :=
  Nat.shiftLeft_eq x 18

theorem lor_eq_add {k y : Nat} (h : y < 2 ^ k) (a : Nat) :
    (a * 2 ^ k) ||| y = a * 2 ^ k + y := by
  have h3 := (Nat.mul_add_lt_is_or h a).symm
  simpa [Nat.mul_comm] using h3

theorem lor_add_64 {y : Nat} (h : y < 0x40) (a : Nat) :
    (a * 0x40) ||| y = a * 0x40 + y :=
  @lor_eq_add 6 y h a

theorem lor_add_4096 {y : Nat} (h : y < 0x1000) (a : Nat) :
    (a * 0x1000) ||| y = a * 0x1000 + y :=
  @lor_eq_add 12 y h a

theorem lor_add_262144 {y : Nat} (h : y < 0x40000) (a : Nat) :
    (a * 0x40000) ||| y = a * 0x40000 + y :=
  @lor_eq_add 18 y h a

/-! The source's mask tests on a byte coincide with the spec's leading-byte
ranges, and the assembled scalars coincide with their arithmetic form. -/

set_option maxRecDepth 8000 in
theorem mask80_iff : ∀ b : Nat, b < 256 → ((b &&& 0x80 = 0x00) ↔ b ≤ 0x7f) := by
  decide

set_option maxRecDepth 8000 in
theorem maskC0_iff : ∀ b : Nat, b < 256 →
    ((b &&& 0xe0 = 0xc0) ↔ (0xc0 ≤ b ∧ b ≤ 0xdf)) := by
  decide

set_option maxRecDepth 8000 in
theorem maskE0_iff : ∀ b : Nat, b < 256 →
    ((b &&& 0xf0 = 0xe0) ↔ (0xe0 ≤ b ∧ b ≤ 0xef)) := by
  decide

set_option maxRecDepth 8000 in
theorem maskF8_iff : ∀ b : Nat, b < 256 →
    ((b &&& 0xf8 = 0xf0) ↔ (0xf0 ≤ b ∧ b ≤ 0xf7)) := by
  decide

theorem chr2_eq (b b1 : Nat) :
    ((b &&& 0x1f) <<< 6) ||| (b1 &&& 0x3f) = (b % 0x20) * 0x40 + b1 % 0x40 := by
  simp only [and_1f, and_3f, shl6]
  exact lor_add_64 (by omega) (b % 0x20)

theorem chr3_eq (b b1 b2 : Nat) :
    ((b &&& 0x0f) <<< 12) ||| ((b1 &&& 0x3f) <<< 6) ||| (b2 &&& 0x3f)
      = (b % 0x10) * 0x1000 + (b1 % 0x40) * 0x40 + b2 % 0x40 := by
  simp only [and_0f, and_3f, shl12, shl6]
  rw [lor_add_4096 (show (b1 % 0x40) * 0x40 < 0x1000 by omega)]
  rw [show (b % 0x10) * 0x1000 + (b1 % 0x40) * 0x40
        = ((b % 0x10) * 0x40 + b1 % 0x40) * 0x40 by ring]
  rw [lor_add_64 (show b2 % 0x40 < 0x40 by omega)]

theorem chr4_eq (b b1 b2 b3 : Nat) :
    ((b &&& 0x07) <<< 18) ||| ((b1 &&& 0x3f) <<< 12) |||
        ((b2 &&& 0x3f) <<< 6) ||| (b3 &&& 0x3f)
      = (b % 0x08) * 0x40000 + (b1 % 0x40) * 0x1000 +
          (b2 % 0x40) * 0x40 + b3 % 0x40 := by
  simp only [and_07, and_3f, shl18, shl12, shl6]
  rw [lor_add_262144 (show (b1 % 0x40) * 0x1000 < 0x40000 by omega)]
  rw [show (b % 0x08) * 0x40000 + (b1 % 0x40) * 0x1000
        = ((b % 0x08) * 0x40 + b1 % 0x40) * 0x1000 by ring]
  rw [lor_add_4096 (show (b2 % 0x40) * 0x40 < 0x1000 by omega)]
  rw [show ((b % 0x08) * 0x40 + b1 % 0x40) * 0x1000 + (b2 % 0x40) * 0x40
        = (((b % 0x08) * 0x40 + b1 % 0x40) * 0x40 + b2 % 0x40) * 0x40 by ring]
  rw [lor_add_64 (show b3 % 0x40 < 0x40 by omega)]

theorem unitCount_eq_if (c : Nat) : unitCount c = if c < 0x10000 then 1 else 2 := by
  unfold unitCount
  rcases Nat.lt_or_ge c 0x10000 with h | h
  · rw [if_neg (by omega), if_pos h]
  · rw [if_pos h, if_neg (by omega)]

/-- Main agreement: on byte sequences, `wide_len` computes the spec's unit
count and `wide` emits the UTF-16 units of the spec's decoded scalars. -/
theorem codec_agree : ∀ n : Nat, ∀ s : List Nat, s.length ≤ n →
    (∀ b ∈ s, b < 256) →
    wide_len s = spec_wide_len s ∧
      wide s = (decode_scalars s).map encode_all := by
  intro n
  induction n with
  | zero =>
    intro s hs _
    have hnil : s = [] := List.length_eq_zero.mp (Nat.le_zero.mp hs)
    subst hnil
    exact ⟨rfl, rfl⟩
  | succ n ih =>
    intro s hs hb
    cases s with
    | nil => exact ⟨rfl, rfl⟩
    | cons b t1 =>
      have hbb : b < 256 := hb b (by simp)
      cases t1 with
      | nil =>
        by_cases h1 : b &&& 0x80 = 0x00
        · have hb7 : b ≤ 0x7f := (mask80_iff b hbb).mp h1
          constructor
          · rw [wide_len.eq_2, if_pos h1]
            simp [spec_wide_len, decode_scalars, wide_len, unitCount_eq_if,
              hb7]
          · rw [wide.eq_2, if_pos h1]
            simp [decode_scalars, wide, encode_all, hb7]
        · have hn7 : ¬ b ≤ 0x7f := fun hr => h1 ((mask80_iff b hbb).mpr hr)
          constructor
          · rw [wide_len.eq_2, if_neg h1]
            simp [spec_wide_len, decode_scalars, hn7]
          · rw [wide.eq_2, if_neg h1]
            simp [decode_scalars, hn7]
      | cons b1 t2 =>
        have hbb1 : b1 < 256 := hb b1 (by simp)
        cases t2 with
        | nil =>
          simp only [List.length_cons, List.length_nil] at hs
          by_cases h1 : b &&& 0x80 = 0x00
          · have hb7 : b ≤ 0x7f := (mask80_iff b hbb).mp h1
            obtain ⟨ihl, ihw⟩ := ih [b1] (by simp; omega)
              (fun x hx => by simp at hx; subst hx; exact hbb1)
            constructor
            · rw [wide_len.eq_3, if_pos h1, ihl]
              simp only [spec_wide_len]
              rw [decode_scalars.eq_3, if_pos hb7]
              cases hd : decode_scalars [b1] <;> simp [hd, unitCount_eq_if]
            · rw [wide.eq_3, if_pos h1, ihw]
              rw [decode_scalars.eq_3, if_pos hb7]
              cases hd : decode_scalars [b1] <;> simp [hd, encode_all]
          · have hn7 : ¬ b ≤ 0x7f := fun hr => h1 ((mask80_iff b hbb).mpr hr)
            by_cases h2 : b &&& 0xe0 = 0xc0
            · have hr2 : 0xc0 ≤ b ∧ b ≤ 0xdf := (maskC0_iff b hbb).mp h2
              constructor
              · rw [wide_len.eq_3, if_neg h1, if_pos h2]
                simp only [spec_wide_len]
                rw [decode_scalars.eq_3, if_neg hn7, if_pos hr2]
                simp [wide_len, decode_scalars, unitCount_eq_if, chr2_eq]
              · rw [wide.eq_3, if_neg h1, if_pos h2]
                rw [decode_scalars.eq_3, if_neg hn7, if_pos hr2]
                simp [wide, decode_scalars, encode_all, chr2_eq]
            · have hn2 : ¬ (0xc0 ≤ b ∧ b ≤ 0xdf) := fun hr =>
                h2 ((maskC0_iff b hbb).mpr hr)
              constructor
              · rw [wide_len.eq_3, if_neg h1, if_neg h2]
                simp only [spec_wide_len]
                rw [decode_scalars.eq_3, if_neg hn7, if_neg hn2]
                simp
              · rw [wide.eq_3, if_neg h1, if_neg h2]
                rw [decode_scalars.eq_3, if_neg hn7, if_neg hn2]
                simp
        | cons b2 t3 =>
          have hbb2 : b2 < 256 := hb b2 (by simp)
          cases t3 with
          | nil =>
            simp only [List.length_cons, List.length_nil] at hs
            by_cases h1 : b &&& 0x80 = 0x00
            · have hb7 : b ≤ 0x7f := (mask80_iff b hbb).mp h1
              obtain ⟨ihl, ihw⟩ := ih [b1, b2] (by simp; omega)
                (fun x hx => by
                  simp at hx
                  rcases hx with hx | hx <;> subst hx <;> assumption)
              constructor
              · rw [wide_len.eq_4, if_pos h1, ihl]
                simp only [spec_wide_len]
                rw [decode_scalars.eq_4, if_pos hb7]
                cases hd : decode_scalars [b1, b2] <;>
                  simp [hd, unitCount_eq_if]
              · rw [wide.eq_4, if_pos h1, ihw]
                rw [decode_scalars.eq_4, if_pos hb7]
                cases hd : decode_scalars [b1, b2] <;> simp [hd, encode_all]
            · have hn7 : ¬ b ≤ 0x7f := fun hr =>
                h1 ((mask80_iff b hbb).mpr hr)
              by_cases h2 : b &&& 0xe0 = 0xc0
              · have hr2 : 0xc0 ≤ b ∧ b ≤ 0xdf := (maskC0_iff b hbb).mp h2
                obtain ⟨ihl, ihw⟩ := ih [b2] (by simp; omega)
                  (fun x hx => by simp at hx; subst hx; exact hbb2)
                constructor
                · rw [wide_len.eq_4, if_neg h1, if_pos h2, ihl]
                  simp only [spec_wide_len]
                  rw [decode_scalars.eq_4, if_neg hn7, if_pos hr2]
                  cases hd : decode_scalars [b2] <;>
                    simp [hd, unitCount_eq_if, chr2_eq]
                · rw [wide.eq_4, if_neg h1, if_pos h2, ihw]
                  rw [decode_scalars.eq_4, if_neg hn7, if_pos hr2]
                  cases hd : decode_scalars [b2] <;>
                    simp [hd, encode_all, chr2_eq]
              · have hn2 : ¬ (0xc0 ≤ b ∧ b ≤ 0xdf) := fun hr =>
                  h2 ((maskC0_iff b hbb).mpr hr)
                by_cases h3 : b &&& 0xf0 = 0xe0
                · have hr3 : 0xe0 ≤ b ∧ b ≤ 0xef := (maskE0_iff b hbb).mp h3
                  constructor
                  · rw [wide_len.eq_4, if_neg h1, if_neg h2, if_pos h3]
                    simp only [spec_wide_len]
                    rw [decode_scalars.eq_4, if_neg hn7, if_neg hn2,
                      if_pos hr3]
                    simp [wide_len, decode_scalars, unitCount_eq_if, chr3_eq]
                  · rw [wide.eq_4, if_neg h1, if_neg h2, if_pos h3]
                    rw [decode_scalars.eq_4, if_neg hn7, if_neg hn2,
                      if_pos hr3]
                    simp [wide, decode_scalars, encode_all, chr3_eq]
                · have hn3 : ¬ (0xe0 ≤ b ∧ b ≤ 0xef) := fun hr =>
                    h3 ((maskE0_iff b hbb).mpr hr)
                  constructor
                  · rw [wide_len.eq_4, if_neg h1, if_neg h2, if_neg h3]
                    simp only [spec_wide_len]
                    rw [decode_scalars.eq_4, if_neg hn7, if_neg hn2,
                      if_neg hn3]
                    simp
                  · rw [wide.eq_4, if_neg h1, if_neg h2, if_neg h3]
                    rw [decode_scalars.eq_4, if_neg hn7, if_neg hn2,
                      if_neg hn3]
                    simp
          | cons b3 rest =>
            have hbb3 : b3 < 256 := hb b3 (by simp)
            simp only [List.length_cons] at hs
            by_cases h1 : b &&& 0x80 = 0x00
            · have hb7 : b ≤ 0x7f := (mask80_iff b hbb).mp h1
              obtain ⟨ihl, ihw⟩ := ih (b1 :: b2 :: b3 :: rest)
                (by simp; omega)
                (fun x hx => hb x (List.mem_cons_of_mem b hx))
              constructor
              · rw [wide_len.eq_5, if_pos h1, ihl]
                simp only [spec_wide_len]
                rw [decode_scalars.eq_5, if_pos hb7]
                cases hd : decode_scalars (b1 :: b2 :: b3 :: rest) <;>
                  simp [hd, unitCount_eq_if]
              · rw [wide.eq_5, if_pos h1, ihw]
                rw [decode_scalars.eq_5, if_pos hb7]
                cases hd : decode_scalars (b1 :: b2 :: b3 :: rest) <;>
                  simp [hd, encode_all]
            · have hn7 : ¬ b ≤ 0x7f := fun hr =>
                h1 ((mask80_iff b hbb).mpr hr)
              by_cases h2 : b &&& 0xe0 = 0xc0
              · have hr2 : 0xc0 ≤ b ∧ b ≤ 0xdf := (maskC0_iff b hbb).mp h2
                obtain ⟨ihl, ihw⟩ := ih (b2 :: b3 :: rest) (by simp; omega)
                  (fun x hx => hb x (List.mem_cons_of_mem b
                    (List.mem_cons_of_mem b1 hx)))
                constructor
                · rw [wide_len.eq_5, if_neg h1, if_pos h2, ihl]
                  simp only [spec_wide_len]
                  rw [decode_scalars.eq_5, if_neg hn7, if_pos hr2]
                  cases hd : decode_scalars (b2 :: b3 :: rest) <;>
                    simp [hd, unitCount_eq_if, chr2_eq]
                · rw [wide.eq_5, if_neg h1, if_pos h2, ihw]
                  rw [decode_scalars.eq_5, if_neg hn7, if_pos hr2]
                  cases hd : decode_scalars (b2 :: b3 :: rest) <;>
                    simp [hd, encode_all, chr2_eq]
              · have hn2 : ¬ (0xc0 ≤ b ∧ b ≤ 0xdf) := fun hr =>
                  h2 ((maskC0_iff b hbb).mpr hr)
                by_cases h3 : b &&& 0xf0 = 0xe0
                · have hr3 : 0xe0 ≤ b ∧ b ≤ 0xef :=
                    (maskE0_iff b hbb).mp h3
                  obtain ⟨ihl, ihw⟩ := ih (b3 :: rest) (by simp; omega)
                    (fun x hx => hb x (List.mem_cons_of_mem b
                      (List.mem_cons_of_mem b1
                        (List.mem_cons_of_mem b2 hx))))
                  constructor
                  · rw [wide_len.eq_5, if_neg h1, if_neg h2, if_pos h3, ihl]
                    simp only [spec_wide_len]
                    rw [decode_scalars.eq_5, if_neg hn7, if_neg hn2,
                      if_pos hr3]
                    cases hd : decode_scalars (b3 :: rest) <;>
                      simp [hd, unitCount_eq_if, chr3_eq]
                  · rw [wide.eq_5, if_neg h1, if_neg h2, if_pos h3, ihw]
                    rw [decode_scalars.eq_5, if_neg hn7, if_neg hn2,
                      if_pos hr3]
                    cases hd : decode_scalars (b3 :: rest) <;>
                      simp [hd, encode_all, chr3_eq]
                · have hn3 : ¬ (0xe0 ≤ b ∧ b ≤ 0xef) := fun hr =>
                    h3 ((maskE0_iff b hbb).mpr hr)
                  by_cases h4 : b &&& 0xf8 = 0xf0
                  · have hr4 : 0xf0 ≤ b ∧ b ≤ 0xf7 :=
                      (maskF8_iff b hbb).mp h4
                    obtain ⟨ihl, ihw⟩ := ih rest (by omega)
                      (fun x hx => hb x (List.mem_cons_of_mem b
                        (List.mem_cons_of_mem b1
                          (List.mem_cons_of_mem b2
                            (List.mem_cons_of_mem b3 hx)))))
                    constructor
                    · rw [wide_len.eq_5, if_neg h1, if_neg h2, if_neg h3,
                        if_pos h4, ihl]
                      simp only [spec_wide_len]
                      rw [decode_scalars.eq_5, if_neg hn7, if_neg hn2,
                        if_neg hn3, if_pos hr4]
                      cases hd : decode_scalars rest <;>
                        simp [hd, unitCount_eq_if, chr4_eq]
                    · rw [wide.eq_5, if_neg h1, if_neg h2, if_neg h3,
                        if_pos h4, ihw]
                      rw [decode_scalars.eq_5, if_neg hn7, if_neg hn2,
                        if_neg hn3, if_pos hr4]
                      cases hd : decode_scalars rest <;>
                        simp [hd, encode_all, chr4_eq]
                  · have hn4 : ¬ (0xf0 ≤ b ∧ b ≤ 0xf7) := fun hr =>
                      h4 ((maskF8_iff b hbb).mpr hr)
                    constructor
                    · rw [wide_len.eq_5, if_neg h1, if_neg h2, if_neg h3,
                        if_neg h4]
                      simp only [spec_wide_len]
                      rw [decode_scalars.eq_5, if_neg hn7, if_neg hn2,
                        if_neg hn3, if_neg hn4]
                      simp
                    · rw [wide.eq_5, if_neg h1, if_neg h2, if_neg h3,
                        if_neg h4]
                      rw [decode_scalars.eq_5, if_neg hn7, if_neg hn2,
                        if_neg hn3, if_neg hn4]
                      simp

theorem wide_len_eq_spec (s : List Nat) (hb : ∀ b ∈ s, b < 256) :
    wide_len s = spec_wide_len s :=
  (codec_agree s.length s Nat.le.refl hb).1

theorem wide_eq_spec (s : List Nat) (hb : ∀ b ∈ s, b < 256) :
    wide s = (decode_scalars s).map encode_all :=
  (codec_agree s.length s Nat.le.refl hb).2

theorem encodeScalar_length (c : Nat) :
    (encodeScalar c).length = if c < 0x10000 then 1 else 2 := by
  unfold encodeScalar
  rcases Nat.lt_or_ge c 0x10000 with h | h
  · rw [if_neg (by omega), if_pos h]
    rfl
  · rw [if_pos h, if_neg (by omega)]
    rfl

theorem encode_all_length (cs : List Nat) :
    (encode_all cs).length
      = (cs.map (fun c => if c < 0x10000 then 1 else 2)).sum := by
  induction cs with
  | nil => rfl
  | cons c cs ih =>
    simp [encode_all, encodeScalar_length] at ih ⊢
    exact ih

theorem encodeScalar_small {c : Nat} (h : c < 0x10000) :
    encodeScalar c = [c] := by
  unfold encodeScalar
  rw [if_neg (by omega)]
  simp [Nat.mod_eq_of_lt h]

theorem encodeScalar_large {c : Nat} (hge : 0x10000 ≤ c) (hlt : c < 0x110000) :
    encodeScalar c
      = [0xd800 + (c - 0x10000) / 0x400, 0xdc00 + (c - 0x10000) % 0x400] := by
  unfold encodeScalar
  rw [if_pos hge]
  have hdiv : (c - 0x10000) / 0x400 < 0x400 := by omega
  have hmod : (c - 0x10000) % 0x400 < 0x400 := by omega
  rw [Nat.mod_eq_of_lt (by omega), Nat.mod_eq_of_lt (by omega)]

/-- Decoding the UTF-16 encoding of a sequence of Unicode scalar values
recovers the sequence. -/
theorem decode_encode_utf16 : ∀ cs : List Nat, (∀ c ∈ cs, ScalarValue c) →
    decode_utf16 (encode_all cs) = some cs := by
  intro cs
  induction cs with
  | nil => intro _; rfl
  | cons c cs ih =>
    intro h
    have hc : ScalarValue c := h c (by simp)
    have hrest := ih (fun x hx => h x (List.mem_cons_of_mem c hx))
    obtain ⟨hlt110, hns⟩ := hc
    rcases Nat.lt_or_ge c 0x10000 with hlt | hge
    · rw [show encode_all (c :: cs) = c :: encode_all cs by
        simp [encode_all, encodeScalar_small hlt]]
      cases hA : encode_all cs with
      | nil =>
        rw [hA] at hrest
        rw [decode_utf16.eq_2, if_neg (by omega)]
        simpa using hrest
      | cons u us =>
        rw [hA] at hrest
        rw [decode_utf16.eq_3, if_neg (by omega), if_neg (by omega), hrest]
        rfl
    · have hpair := encodeScalar_large hge hlt110
      rw [show encode_all (c :: cs)
            = (0xd800 + (c - 0x10000) / 0x400) ::
              (0xdc00 + (c - 0x10000) % 0x400) :: encode_all cs by
        simp [encode_all, hpair]]
      have hdiv : (c - 0x10000) / 0x400 < 0x400 := by omega
      have hmod : (c - 0x10000) % 0x400 < 0x400 := by omega
      rw [decode_utf16.eq_3, if_pos (by omega), if_pos (by omega), hrest]
      have hval : 0x10000 + (0xd800 + (c - 0x10000) / 0x400 - 0xd800) * 0x400
          + (0xdc00 + (c - 0x10000) % 0x400 - 0xdc00) = c := by omega
      rw [hval]
      rfl

/-! The copy loop of `utf16_null!`. -/

theorem take_set_succ : ∀ (l : List Nat) (i : Nat) (x : Nat),
    i < l.length → (l.set i x).take (i + 1) = l.take i ++ [x] := by
  intro l
  induction l with
  | nil => intro i x h; simp at h
  | cons a t ih =>
    intro i x h
    cases i with
    | zero => simp
    | succ i =>
      simp only [List.set_cons_succ, List.take_succ_cons, List.cons_append]
      rw [ih i x (by simp at h; omega)]

theorem drop_eq_getD_cons : ∀ (l : List Nat) (i : Nat), i < l.length →
    l.drop i = l.getD i 0 :: l.drop (i + 1) := by
  intro l
  induction l with
  | nil => intro i h; simp at h
  | cons a t ih =>
    intro i h
    cases i with
    | zero => simp [List.getD]
    | succ i =>
      simp only [List.drop_succ_cons, List.getD_cons_succ]
      exact ih i (by simp at h; omega)

theorem getD_set_ne : ∀ (l : List Nat) (i j x : Nat), i ≠ j →
    (l.set i x).getD j 0 = l.getD j 0 := by
  intro l
  induction l with
  | nil => intro i j x _; simp
  | cons a t ih =>
    intro i j x hne
    cases i with
    | zero =>
      cases j with
      | zero => exact absurd rfl hne
      | succ j => simp
    | succ i =>
      cases j with
      | zero => simp
      | succ j =>
        simp only [List.set_cons_succ, List.getD_cons_succ]
        exact ih i j x (by omega)

theorem null_copy_eq (u : List Nat) : ∀ k i data, u.length - i = k →
    data.length = u.length + 1 → i ≤ u.length →
    null_copy u data i
      = data.take i ++ u.drop i ++ [data.getD u.length 0] := by
  intro k
  induction k with
  | zero =>
    intro i data hk hlen hi
    have hieq : i = u.length := by omega
    rw [null_copy, if_neg (by omega)]
    subst hieq
    rw [List.drop_length]
    have h1 := (List.take_append_drop u.length data).symm
    rw [drop_eq_getD_cons data u.length (by omega),
      List.drop_eq_nil_of_le (by omega)] at h1
    simpa using h1
  | succ k ihk =>
    intro i data hk hlen hi
    have hilt : i < u.length := by omega
    rw [null_copy, if_pos (by omega)]
    rw [ihk (i + 1) (data.set i (u.getD i 0)) (by omega) (by simp [hlen])
      (by omega)]
    rw [take_set_succ data i (u.getD i 0) (by omega)]
    rw [drop_eq_getD_cons u i hilt]
    rw [getD_set_ne data i u.length (u.getD i 0) (by omega)]
    simp

theorem getD_replicate_zero : ∀ (n j : Nat),
    (List.replicate n (0 : Nat)).getD j 0 = 0 := by
  intro n
  induction n with
  | zero => intro j; simp
  | succ n ih =>
    intro j
    cases j with
    | zero => simp [List.replicate]
    | succ j => simp [List.replicate, ih]

/-- The `utf16_null!` copy loop appends exactly one zero. -/
theorem utf16_null_units_eq (u : List Nat) : utf16_null_units u = u ++ [0] := by
  unfold utf16_null_units
  rw [null_copy_eq u u.length 0 (List.replicate (u.length + 1) 0) (by omega)
    (by simp) (by omega)]
  rw [getD_replicate_zero]
  simp

/-- With at least `s.length` units of fuel, the fuel-bounded loops compute
exactly what the loops of the source compute: every iteration consumes at
least one byte, so `s.length` iterations always suffice. -/
theorem fuel_complete : ∀ fuel : Nat, ∀ s : List Nat, s.length ≤ fuel →
    wide_len_fuel fuel s = wide_len s ∧ wide_fuel fuel s = wide s := by
  intro fuel
  induction fuel with
  | zero =>
    intro s hs
    have hnil : s = [] := List.length_eq_zero.mp (Nat.le_zero.mp hs)
    subst hnil
    exact ⟨rfl, rfl⟩
  | succ f ih =>
    intro s hs
    cases s with
    | nil => exact ⟨rfl, rfl⟩
    | cons b t1 =>
      cases t1 with
      | nil =>
        constructor <;> simp [wide_len_fuel, wide_len, wide_fuel, wide]
      | cons b1 t2 =>
        cases t2 with
        | nil =>
          simp only [List.length_cons] at hs
          obtain ⟨ih1l, ih1w⟩ := ih [b1] (by simp; omega)
          constructor <;>
            simp [wide_len_fuel, wide_len, wide_fuel, wide, ih1l, ih1w]
        | cons b2 t3 =>
          cases t3 with
          | nil =>
            simp only [List.length_cons] at hs
            obtain ⟨ih2l, ih2w⟩ := ih [b1, b2] (by simp; omega)
            obtain ⟨ih1l, ih1w⟩ := ih [b2] (by simp; omega)
            constructor <;>
              simp [wide_len_fuel, wide_len, wide_fuel, wide, ih2l, ih2w,
                ih1l, ih1w]
          | cons b3 rest =>
            simp only [List.length_cons] at hs
            obtain ⟨ih3l, ih3w⟩ := ih (b1 :: b2 :: b3 :: rest) (by simp; omega)
            obtain ⟨ih2l, ih2w⟩ := ih (b2 :: b3 :: rest) (by simp; omega)
            obtain ⟨ih1l, ih1w⟩ := ih (b3 :: rest) (by simp; omega)
            obtain ⟨ih0l, ih0w⟩ := ih rest (by omega)
            constructor <;>
              simp [wide_len_fuel, wide_len, wide_fuel, wide, ih3l, ih3w,
                ih2l, ih2w, ih1l, ih1w, ih0l, ih0w]

/-- A well-formed UTF-8 sequence has bytes below 256 and decodes to a
sequence of Unicode scalar values. -/
theorem wf_decode : ∀ n : Nat, ∀ s : List Nat, s.length ≤ n →
    wellFormedUtf8 s = true →
    (∀ b ∈ s, b < 256) ∧
      ∃ cs, decode_scalars s = some cs ∧ ∀ c ∈ cs, ScalarValue c := by
  intro n
  induction n with
  | zero =>
    intro s hs _
    have hnil : s = [] := List.length_eq_zero.mp (Nat.le_zero.mp hs)
    subst hnil
    exact ⟨by simp, [], rfl, by simp⟩
  | succ n ih =>
    intro s hs hwf
    cases s with
    | nil => exact ⟨by simp, [], rfl, by simp⟩
    | cons b t1 =>
      cases t1 with
      | nil =>
        rw [wellFormedUtf8.eq_2] at hwf
        simp only [decide_eq_true_eq] at hwf
        refine ⟨?_, [b], ?_, ?_⟩
        · intro x hx
          rcases List.mem_cons.mp hx with rfl | hx
          · omega
          · simp at hx
        · rw [decode_scalars.eq_2, if_pos hwf]
          rfl
        · intro c hc
          rcases List.mem_cons.mp hc with rfl | hc
          · exact ⟨by omega, by omega⟩
          · simp at hc
      | cons b1 t2 =>
        simp only [List.length_cons] at hs
        cases t2 with
        | nil =>
          rw [wellFormedUtf8.eq_3] at hwf
          by_cases hb7 : b ≤ 0x7f
          · rw [if_pos hb7] at hwf
            obtain ⟨hbts, cs, hdec, hval⟩ := ih [b1] (by simp; omega) hwf
            refine ⟨?_, b :: cs, ?_, ?_⟩
            · intro x hx
              rcases List.mem_cons.mp hx with rfl | hx
              · omega
              · exact hbts x hx
            · rw [decode_scalars.eq_3, if_pos hb7, hdec]
              rfl
            · intro c hc
              rcases List.mem_cons.mp hc with rfl | hc
              · exact ⟨by omega, by omega⟩
              · exact hval c hc
          · rw [if_neg hb7] at hwf
            by_cases hc2 : 0xc2 ≤ b ∧ b ≤ 0xdf
            · rw [if_pos hc2] at hwf
              simp only [cont, decide_eq_true_eq] at hwf
              refine ⟨?_, [(b % 0x20) * 0x40 + b1 % 0x40], ?_, ?_⟩
              · intro x hx
                rcases List.mem_cons.mp hx with rfl | hx
                · omega
                rcases List.mem_cons.mp hx with rfl | hx
                · omega
                · simp at hx
              · rw [decode_scalars.eq_3, if_neg hb7,
                  if_pos (show 0xc0 ≤ b ∧ b ≤ 0xdf by omega)]
                rfl
              · intro c hc
                rcases List.mem_cons.mp hc with rfl | hc
                · exact ⟨by omega, by omega⟩
                · simp at hc
            · rw [if_neg hc2] at hwf
              exact absurd hwf (by simp)
        | cons b2 t3 =>
          simp only [List.length_cons] at hs
          cases t3 with
          | nil =>
            rw [wellFormedUtf8.eq_4] at hwf
            by_cases hb7 : b ≤ 0x7f
            · rw [if_pos hb7] at hwf
              obtain ⟨hbts, cs, hdec, hval⟩ := ih [b1, b2] (by simp; omega)
                hwf
              refine ⟨?_, b :: cs, ?_, ?_⟩
              · intro x hx
                rcases List.mem_cons.mp hx with rfl | hx
                · omega
                · exact hbts x hx
              · rw [decode_scalars.eq_4, if_pos hb7, hdec]
                rfl
              · intro c hc
                rcases List.mem_cons.mp hc with rfl | hc
                · exact ⟨by omega, by omega⟩
                · exact hval c hc
            · rw [if_neg hb7] at hwf
              by_cases hc2 : 0xc2 ≤ b ∧ b ≤ 0xdf
              · rw [if_pos hc2] at hwf
                simp only [Bool.and_eq_true, cont, decide_eq_true_eq] at hwf
                obtain ⟨hcb1, hwf2⟩ := hwf
                obtain ⟨hbts, cs, hdec, hval⟩ := ih [b2] (by simp; omega)
                  hwf2
                refine ⟨?_, ((b % 0x20) * 0x40 + b1 % 0x40) :: cs, ?_, ?_⟩
                · intro x hx
                  rcases List.mem_cons.mp hx with rfl | hx
                  · omega
                  rcases List.mem_cons.mp hx with rfl | hx
                  · omega
                  · exact hbts x hx
                · rw [decode_scalars.eq_4, if_neg hb7,
                    if_pos (show 0xc0 ≤ b ∧ b ≤ 0xdf by omega), hdec]
                  rfl
                · intro c hc
                  rcases List.mem_cons.mp hc with rfl | hc
                  · exact ⟨by omega, by omega⟩
                  · exact hval c hc
              · rw [if_neg hc2] at hwf
                have hchr3 :
                    ∀ hcond : 0xe0 ≤ b ∧ b ≤ 0xef,
                      decode_scalars [b, b1, b2]
                        = some [(b % 0x10) * 0x1000 + (b1 % 0x40) * 0x40 +
                            b2 % 0x40] := by
                  intro hcond
                  rw [decode_scalars.eq_4, if_neg hb7,
                    if_neg (show ¬ (0xc0 ≤ b ∧ b ≤ 0xdf) by omega),
                    if_pos hcond]
                  rfl
                by_cases he0 : b = 0xe0
                · rw [if_pos he0] at hwf
                  simp only [Bool.and_eq_true, cont, decide_eq_true_eq]
                    at hwf
                  obtain ⟨hb1r, hb2r⟩ := hwf
                  subst he0
                  refine ⟨?_, _, hchr3 (by omega), ?_⟩
                  · intro x hx
                    rcases List.mem_cons.mp hx with rfl | hx
                    · omega
                    rcases List.mem_cons.mp hx with rfl | hx
                    · omega
                    rcases List.mem_cons.mp hx with rfl | hx
                    · omega
                    · simp at hx
                  · intro c hc
                    rcases List.mem_cons.mp hc with rfl | hc
                    · exact ⟨by omega, by omega⟩
                    · simp at hc
                · rw [if_neg he0] at hwf
                  by_cases hee : (0xe1 ≤ b ∧ b ≤ 0xec) ∨ b = 0xee ∨ b = 0xef
                  · rw [if_pos hee] at hwf
                    simp only [Bool.and_eq_true, cont, decide_eq_true_eq]
                      at hwf
                    obtain ⟨hb1r, hb2r⟩ := hwf
                    refine ⟨?_, _, hchr3 (by omega), ?_⟩
                    · intro x hx
                      rcases List.mem_cons.mp hx with rfl | hx
                      · omega
                      rcases List.mem_cons.mp hx with rfl | hx
                      · omega
                      rcases List.mem_cons.mp hx with rfl | hx
                      · omega
                      · simp at hx
                    · intro c hc
                      rcases List.mem_cons.mp hc with rfl | hc
                      · exact ⟨by omega, by omega⟩
                      · simp at hc
                  · rw [if_neg hee] at hwf
                    by_cases hed : b = 0xed
                    · rw [if_pos hed] at hwf
                      simp only [Bool.and_eq_true, cont, decide_eq_true_eq]
                        at hwf
                      obtain ⟨hb1r, hb2r⟩ := hwf
                      subst hed
                      refine ⟨?_, _, hchr3 (by omega), ?_⟩
                      · intro x hx
                        rcases List.mem_cons.mp hx with rfl | hx
                        · omega
                        rcases List.mem_cons.mp hx with rfl | hx
                        · omega
                        rcases List.mem_cons.mp hx with rfl | hx
                        · omega
                        · simp at hx
                      · intro c hc
                        rcases List.mem_cons.mp hc with rfl | hc
                        · exact ⟨by omega, by omega⟩
                        · simp at hc
                    · rw [if_neg hed] at hwf
                      exact absurd hwf (by simp)
          | cons b3 rest =>
            simp only [List.length_cons] at hs
            rw [wellFormedUtf8.eq_5] at hwf
            by_cases hb7 : b ≤ 0x7f
            · rw [if_pos hb7] at hwf
              obtain ⟨hbts, cs, hdec, hval⟩ :=
                ih (b1 :: b2 :: b3 :: rest) (by simp; omega) hwf
              refine ⟨?_, b :: cs, ?_, ?_⟩
              · intro x hx
                rcases List.mem_cons.mp hx with rfl | hx
                · omega
                · exact hbts x hx
              · rw [decode_scalars.eq_5, if_pos hb7, hdec]
                rfl
              · intro c hc
                rcases List.mem_cons.mp hc with rfl | hc
                · exact ⟨by omega, by omega⟩
                · exact hval c hc
            · rw [if_neg hb7] at hwf
              by_cases hc2 : 0xc2 ≤ b ∧ b ≤ 0xdf
              · rw [if_pos hc2] at hwf
                simp only [Bool.and_eq_true, cont, decide_eq_true_eq] at hwf
                obtain ⟨hcb1, hwf2⟩ := hwf
                obtain ⟨hbts, cs, hdec, hval⟩ :=
                  ih (b2 :: b3 :: rest) (by simp; omega) hwf2
                refine ⟨?_, ((b % 0x20) * 0x40 + b1 % 0x40) :: cs, ?_, ?_⟩
                · intro x hx
                  rcases List.mem_cons.mp hx with rfl | hx
                  · omega
                  rcases List.mem_cons.mp hx with rfl | hx
                  · omega
                  · exact hbts x hx
                · rw [decode_scalars.eq_5, if_neg hb7,
                    if_pos (show 0xc0 ≤ b ∧ b ≤ 0xdf by omega), hdec]
                  rfl
                · intro c hc
                  rcases List.mem_cons.mp hc with rfl | hc
                  · exact ⟨by omega, by omega⟩
                  · exact hval c hc
              · rw [if_neg hc2] at hwf
                have hchr3 :
                    ∀ cs, decode_scalars (b3 :: rest) = some cs →
                      (0xe0 ≤ b ∧ b ≤ 0xef) →
                      decode_scalars (b :: b1 :: b2 :: b3 :: rest)
                        = some (((b % 0x10) * 0x1000 + (b1 % 0x40) * 0x40 +
                            b2 % 0x40) :: cs) := by
                  intro cs hdec hcond
                  rw [decode_scalars.eq_5, if_neg hb7,
                    if_neg (show ¬ (0xc0 ≤ b ∧ b ≤ 0xdf) by omega),
                    if_pos hcond, hdec]
                  rfl
                by_cases he0 : b = 0xe0
                · rw [if_pos he0] at hwf
                  simp only [Bool.and_eq_true, cont, decide_eq_true_eq]
                    at hwf
                  obtain ⟨⟨hb1r, hb2r⟩, hwf2⟩ := hwf
                  obtain ⟨hbts, cs, hdec, hval⟩ :=
                    ih (b3 :: rest) (by simp; omega) hwf2
                  subst he0
                  refine ⟨?_, _, hchr3 cs hdec (by omega), ?_⟩
                  · intro x hx
                    rcases List.mem_cons.mp hx with rfl | hx
                    · omega
                    rcases List.mem_cons.mp hx with rfl | hx
                    · omega
                    rcases List.mem_cons.mp hx with rfl | hx
                    · omega
                    · exact hbts x hx
                  · intro c hc
                    rcases List.mem_cons.mp hc with rfl | hc
                    · exact ⟨by omega, by omega⟩
                    · exact hval c hc
                · rw [if_neg he0] at hwf
                  by_cases hee : (0xe1 ≤ b ∧ b ≤ 0xec) ∨ b = 0xee ∨ b = 0xef
                  · rw [if_pos hee] at hwf
                    simp only [Bool.and_eq_true, cont, decide_eq_true_eq]
                      at hwf
                    obtain ⟨⟨hb1r, hb2r⟩, hwf2⟩ := hwf
                    obtain ⟨hbts, cs, hdec, hval⟩ :=
                      ih (b3 :: rest) (by simp; omega) hwf2
                    refine ⟨?_, _, hchr3 cs hdec (by omega), ?_⟩
                    · intro x hx
                      rcases List.mem_cons.mp hx with rfl | hx
                      · omega
                      rcases List.mem_cons.mp hx with rfl | hx
                      · omega
                      rcases List.mem_cons.mp hx with rfl | hx
                      · omega
                      · exact hbts x hx
                    · intro c hc
                      rcases List.mem_cons.mp hc with rfl | hc
                      · exact ⟨by omega, by omega⟩
                      · exact hval c hc
                  · rw [if_neg hee] at hwf
                    by_cases hed : b = 0xed
                    · rw [if_pos hed] at hwf
                      simp only [Bool.and_eq_true, cont, decide_eq_true_eq]
                        at hwf
                      obtain ⟨⟨hb1r, hb2r⟩, hwf2⟩ := hwf
                      obtain ⟨hbts, cs, hdec, hval⟩ :=
                        ih (b3 :: rest) (by simp; omega) hwf2
                      subst hed
                      refine ⟨?_, _, hchr3 cs hdec (by omega), ?_⟩
                      · intro x hx
                        rcases List.mem_cons.mp hx with rfl | hx
                        · omega
                        rcases List.mem_cons.mp hx with rfl | hx
                        · omega
                        rcases List.mem_cons.mp hx with rfl | hx
                        · omega
                        · exact hbts x hx
                      · intro c hc
                        rcases List.mem_cons.mp hc with rfl | hc
                        · exact ⟨by omega, by omega⟩
                        · exact hval c hc
                    · rw [if_neg hed] at hwf
                      have hchr4 :
                          ∀ cs, decode_scalars rest = some cs →
                            (0xf0 ≤ b ∧ b ≤ 0xf7) →
                            decode_scalars (b :: b1 :: b2 :: b3 :: rest)
                              = some (((b % 0x08) * 0x40000 +
                                  (b1 % 0x40) * 0x1000 +
                                  (b2 % 0x40) * 0x40 + b3 % 0x40) :: cs) := by
                        intro cs hdec hcond
                        rw [decode_scalars.eq_5, if_neg hb7,
                          if_neg (show ¬ (0xc0 ≤ b ∧ b ≤ 0xdf) by omega),
                          if_neg (show ¬ (0xe0 ≤ b ∧ b ≤ 0xef) by omega),
                          if_pos hcond, hdec]
                        rfl
                      by_cases hf0 : b = 0xf0
                      · rw [if_pos hf0] at hwf
                        simp only [Bool.and_eq_true, cont,
                          decide_eq_true_eq] at hwf
                        obtain ⟨⟨⟨hb1r, hb2r⟩, hb3r⟩, hwf2⟩ := hwf
                        obtain ⟨hbts, cs, hdec, hval⟩ :=
                          ih rest (by omega) hwf2
                        subst hf0
                        refine ⟨?_, _, hchr4 cs hdec (by omega), ?_⟩
                        · intro x hx
                          rcases List.mem_cons.mp hx with rfl | hx
                          · omega
                          rcases List.mem_cons.mp hx with rfl | hx
                          · omega
                          rcases List.mem_cons.mp hx with rfl | hx
                          · omega
                          rcases List.mem_cons.mp hx with rfl | hx
                          · omega
                          · exact hbts x hx
                        · intro c hc
                          rcases List.mem_cons.mp hc with rfl | hc
                          · exact ⟨by omega, by omega⟩
                          · exact hval c hc
                      · rw [if_neg hf0] at hwf
                        by_cases hf13 : 0xf1 ≤ b ∧ b ≤ 0xf3
                        · rw [if_pos hf13] at hwf
                          simp only [Bool.and_eq_true, cont,
                            decide_eq_true_eq] at hwf
                          obtain ⟨⟨⟨hb1r, hb2r⟩, hb3r⟩, hwf2⟩ := hwf
                          obtain ⟨hbts, cs, hdec, hval⟩ :=
                            ih rest (by omega) hwf2
                          refine ⟨?_, _, hchr4 cs hdec (by omega), ?_⟩
                          · intro x hx
                            rcases List.mem_cons.mp hx with rfl | hx
                            · omega
                            rcases List.mem_cons.mp hx with rfl | hx
                            · omega
                            rcases List.mem_cons.mp hx with rfl | hx
                            · omega
                            rcases List.mem_cons.mp hx with rfl | hx
                            · omega
                            · exact hbts x hx
                          · intro c hc
                            rcases List.mem_cons.mp hc with rfl | hc
                            · exact ⟨by omega, by omega⟩
                            · exact hval c hc
                        · rw [if_neg hf13] at hwf
                          by_cases hf4 : b = 0xf4
                          · rw [if_pos hf4] at hwf
                            simp only [Bool.and_eq_true, cont,
                              decide_eq_true_eq] at hwf
                            obtain ⟨⟨⟨hb1r, hb2r⟩, hb3r⟩, hwf2⟩ := hwf
                            obtain ⟨hbts, cs, hdec, hval⟩ :=
                              ih rest (by omega) hwf2
                            subst hf4
                            refine ⟨?_, _, hchr4 cs hdec (by omega), ?_⟩
                            · intro x hx
                              rcases List.mem_cons.mp hx with rfl | hx
                              · omega
                              rcases List.mem_cons.mp hx with rfl | hx
                              · omega
                              rcases List.mem_cons.mp hx with rfl | hx
                              · omega
                              rcases List.mem_cons.mp hx with rfl | hx
                              · omega
                              · exact hbts x hx
                            · intro c hc
                              rcases List.mem_cons.mp hc with rfl | hc
                              · exact ⟨by omega, by omega⟩
                              · exact hval c hc
                          · rw [if_neg hf4] at hwf
                            exact absurd hwf (by simp)

/-! The claims. -/

/-- C1: Length consistency.  For every valid input byte sequence on which
the encoding pass `wide` produces a unit sequence, `wide_len` computes
exactly the number of 16-bit units written, so the fixed-size buffer sized
by `wide_len` is neither under- nor over-filled. -/
theorem c1_length_consistency (s u : List Nat) (hb : ∀ b ∈ s, b < 256)
    (h : wide s = some u) : wide_len s = some u.length := by
  rw [wide_eq_spec s hb] at h
  rw [wide_len_eq_spec s hb]
  cases hd : decode_scalars s with
  | none => rw [hd] at h; simp at h
  | some cs =>
    rw [hd] at h
    have hu : u = encode_all cs := by simpa using h.symm
    subst hu
    simp [spec_wide_len, hd, encode_all_length]

theorem c1_length_consistency_witness :
    wide [0x61] = some [0x61] ∧ wide_len [0x61] = some 1 :=
  ⟨by decide, c1_length_consistency [0x61] [0x61] (by decide) (by decide)⟩

/-- C2: UTF-16 re-encoding rule.  A decoded scalar (at most the 21-bit
maximum 0x1FFFFF assembled by the 4-byte branch) below 0x10000 is written
directly as one unit; at or above 0x10000 it is written as the surrogate
pair `(0xD800 + (scalar - 0x10000) / 0x400, 0xDC00 + (scalar - 0x10000) %
0x400)`, advancing the output cursor by 2; in particular the bytes of
U+1F600 encode to `[0xD83D, 0xDE00]`. -/
theorem c2_encoding_rule (c : Nat) (h : c ≤ 0x1fffff) :
    ((c < 0x10000 → encodeScalar c = [c]) ∧
      (0x10000 ≤ c → encodeScalar c
        = [0xd800 + (c - 0x10000) / 0x400, 0xdc00 + (c - 0x10000) % 0x400]) ∧
      (encodeScalar c).length = if c < 0x10000 then 1 else 2) ∧
    wide [0xf0, 0x9f, 0x98, 0x80] = some [0xd83d, 0xde00] := by
  refine ⟨⟨fun hlt => encodeScalar_small hlt, fun hge => ?_,
    encodeScalar_length c⟩, by decide⟩
  unfold encodeScalar
  rw [if_pos hge]
  rw [Nat.mod_eq_of_lt (by omega), Nat.mod_eq_of_lt (by omega)]

theorem c2_encoding_rule_witness :
    (0x1f600 : Nat) ≤ 0x1fffff ∧ encodeScalar 0x1f600 = [0xd83d, 0xde00] :=
  ⟨by decide,
    ((c2_encoding_rule 0x1f600 (by decide)).1.2.1 (by decide)).trans
      (by decide)⟩

/-- C3: `wide_len` reference behaviour.  On byte sequences, `wide_len`
computes exactly the spec's description of Operation A: decode the input
left to right into scalars by the four leading-byte patterns and total 1
unit per scalar below 0x10000 and 2 per scalar at or above it. -/
theorem c3_wide_len_spec (s : List Nat) (hb : ∀ b ∈ s, b < 256) :
    wide_len s = spec_wide_len s :=
  wide_len_eq_spec s hb

theorem c3_wide_len_spec_witness :
    wide_len [0xc3, 0xa9] = spec_wide_len [0xc3, 0xa9] ∧
      wide_len [0xc3, 0xa9] = some 1 :=
  ⟨c3_wide_len_spec [0xc3, 0xa9] (by decide), by decide⟩

/-- C4: Null termination.  The `utf16_null!` copy loop turns a unit
sequence of length N into one of length N + 1 whose first N elements are
the source units and whose last element is 0; the source sequence is a
pure value, unmodified. -/
theorem c4_null_termination (u : List Nat) :
    (utf16_null_units u).length = u.length + 1 ∧
      (utf16_null_units u).take u.length = u ∧
      (utf16_null_units u).getLast? = some 0 := by
  rw [utf16_null_units_eq]
  refine ⟨by simp, ?_, by simp⟩
  exact List.take_left u [0]

/-- C5: Round trip.  A well-formed UTF-8 input decodes to a scalar
sequence; `wide` encodes that sequence to UTF-16, and decoding the UTF-16
units (pairing surrogates) recovers exactly the original scalars. -/
theorem c5_round_trip (s : List Nat) (hwf : wellFormedUtf8 s = true) :
    ∃ cs us, decode_scalars s = some cs ∧ wide s = some us ∧
      decode_utf16 us = some cs := by
  obtain ⟨hb, cs, hdec, hval⟩ := wf_decode s.length s Nat.le.refl hwf
  refine ⟨cs, encode_all cs, hdec, ?_, decode_encode_utf16 cs hval⟩
  rw [wide_eq_spec s hb, hdec]
  rfl

theorem c5_round_trip_witness :
    wellFormedUtf8 [0xf0, 0x9f, 0x98, 0x80] = true ∧
      ∃ cs us, decode_scalars [0xf0, 0x9f, 0x98, 0x80] = some cs ∧
        wide [0xf0, 0x9f, 0x98, 0x80] = some us ∧
        decode_utf16 us = some cs :=
  ⟨by decide, c5_round_trip [0xf0, 0x9f, 0x98, 0x80] (by decide)⟩

/-- C6 counterexample: the claim that every ill-formed UTF-8 input is
rejected fails.  The overlong sequence `[0xC0, 0x80]` is not well-formed
UTF-8, yet the transformation succeeds and produces the unit sequence
`[0]` rather than failing with no output. -/
theorem c6_counterexample :
    wellFormedUtf8 [0xc0, 0x80] = false ∧
      wide_len [0xc0, 0x80] = some 1 ∧
      wide [0xc0, 0x80] = some [0] ∧
      utf16 [0xc0, 0x80] = some [0] := by
  decide

/-- C6 (amended): an input whose leading byte matches none of the four
recognized patterns (e.g. 0xFF) triggers the invalid-literal failure:
no output is produced by either pass or by either macro.  Ill-formed
inputs whose bytes do match the patterns (overlong forms, encoded
surrogates, bad continuation bytes) are not rejected. -/
theorem c6_invalid_lead_rejected (b : Nat) (rest : List Nat)
    (h1 : ¬ b &&& 0x80 = 0x00) (h2 : ¬ b &&& 0xe0 = 0xc0)
    (h3 : ¬ b &&& 0xf0 = 0xe0) (h4 : ¬ b &&& 0xf8 = 0xf0) :
    wide_len (b :: rest) = none ∧ wide (b :: rest) = none ∧
      utf16 (b :: rest) = none ∧ utf16_null (b :: rest) = none := by
  have hl : wide_len (b :: rest) = none := by
    cases rest with
    | nil => rw [wide_len.eq_2, if_neg h1]
    | cons b1 t2 =>
      cases t2 with
      | nil => rw [wide_len.eq_3, if_neg h1, if_neg h2]
      | cons b2 t3 =>
        cases t3 with
        | nil => rw [wide_len.eq_4, if_neg h1, if_neg h2, if_neg h3]
        | cons b3 r =>
          rw [wide_len.eq_5, if_neg h1, if_neg h2, if_neg h3, if_neg h4]
  have hw : wide (b :: rest) = none := by
    cases rest with
    | nil => rw [wide.eq_2, if_neg h1]
    | cons b1 t2 =>
      cases t2 with
      | nil => rw [wide.eq_3, if_neg h1, if_neg h2]
      | cons b2 t3 =>
        cases t3 with
        | nil => rw [wide.eq_4, if_neg h1, if_neg h2, if_neg h3]
        | cons b3 r =>
          rw [wide.eq_5, if_neg h1, if_neg h2, if_neg h3, if_neg h4]
  exact ⟨hl, hw, by simp [utf16, hl], by simp [utf16_null, utf16, hl]⟩

theorem c6_invalid_lead_rejected_witness :
    wide_len [0xff] = none ∧ wide [0xff] = none ∧
      utf16 [0xff] = none ∧ utf16_null [0xff] = none :=
  c6_invalid_lead_rejected 0xff [] (by decide) (by decide) (by decide)
    (by decide)

/-- C7: Determinism and purity.  In this embedding the transformations are
functions of the input byte sequence alone: equal inputs give bit-identical
unit sequences and equal lengths, with no other state involved. -/
theorem c7_determinism (s t : List Nat) (h : s = t) :
    wide_len s = wide_len t ∧ wide s = wide t ∧ utf16 s = utf16 t ∧
      utf16_null s = utf16_null t := by
  subst h
  exact ⟨rfl, rfl, rfl, rfl⟩

theorem c7_determinism_witness :
    wide_len [0x61] = wide_len [0x61] ∧ wide [0x61] = wide [0x61] ∧
      utf16 [0x61] = utf16 [0x61] ∧ utf16_null [0x61] = utf16_null [0x61] :=
  c7_determinism [0x61] [0x61] rfl

/-- C8: Empty input.  The empty string yields unit count 0 and the empty
unit sequence from the plain transformation, and `[0]` from the
null-terminated one. -/
theorem c8_empty :
    wide_len ([] : List Nat) = some 0 ∧ wide ([] : List Nat) = some [] ∧
      utf16 ([] : List Nat) = some [] ∧
      utf16_null ([] : List Nat) = some [0] := by
  refine ⟨rfl, rfl, rfl, ?_⟩
  simp [utf16_null, utf16, utf16_null_units_eq, wide_len, wide]

/-- C9: Totality on well-formed input.  On a well-formed UTF-8 byte
sequence neither pass fails: every look-ahead is in bounds and the
invalid-literal branch is never reached, so `wide_len` and `wide` both
produce a value. -/
theorem c9_no_panic (s : List Nat) (hwf : wellFormedUtf8 s = true) :
    (wide_len s).isSome ∧ (wide s).isSome := by
  obtain ⟨hb, cs, hdec, _⟩ := wf_decode s.length s Nat.le.refl hwf
  constructor
  · rw [wide_len_eq_spec s hb]
    simp [spec_wide_len, hdec]
  · rw [wide_eq_spec s hb, hdec]
    rfl

theorem c9_no_panic_witness :
    (wide_len [0xc3, 0xa9]).isSome ∧ (wide [0xc3, 0xa9]).isSome :=
  c9_no_panic [0xc3, 0xa9] (by decide)

/-- C10: Termination.  Each iteration of the scanning loops consumes at
least one byte, so `s.length` iterations always suffice: with any fuel of
at least `s.length`, the fuel-bounded loops compute exactly `wide_len` and
`wide`. -/
theorem c10_termination (fuel : Nat) (s : List Nat) (h : s.length ≤ fuel) :
    wide_len_fuel fuel s = wide_len s ∧ wide_fuel fuel s = wide s :=
  fuel_complete fuel s h

theorem c10_termination_witness :
    wide_len_fuel 2 [0xc3, 0xa9] = wide_len [0xc3, 0xa9] ∧
      wide_fuel 2 [0xc3, 0xa9] = wide [0xc3, 0xa9] :=
  c10_termination 2 [0xc3, 0xa9] (by decide)

end Utf16Lit
